import Mathlib

/-!
Verification development for the ASA exam-creator single-page application
(`src/index.tsx`).  The React component `ExamApp` is embedded shallowly:

* `AppState` mirrors the `AppState` interface (the `useState` record);
* each event handler (`selectAnswer`, `nextQuestion`, `prevQuestion`,
  `restartFull`, `retakeCurrent`) becomes a pure state transformer;
* `shuffleArray` (Fisher–Yates on a copy) is embedded as `fisherYates`,
  deterministic in an explicit draw oracle `r : Nat → Nat`, where `r i`
  stands for the value `Math.floor(Math.random() * (i + 1))` drawn when the
  loop counter equals `i` (hence `r i ≤ i` for every draw the program can
  produce);
* the asynchronous `generateQuestions` flow is split into its synchronous
  stages `genBegin` (the leading `setState`), `genComplete` (the `setState`
  executed when the model response has been parsed) and `genFail` (the
  `catch` branch);
* `ui...` wrappers add the rendering/disabled conditions under which the
  JSX actually lets a user fire each handler (`none` = the control is not
  rendered or is disabled);
* JavaScript `Record<number, string>` objects are association lists with
  `List.lookup` semantics, and JavaScript numbers appearing in index
  arithmetic are `Nat` (the only negative intermediate value,
  `questions.length - 1` at length `0`, makes the comparison
  `cursor < length - 1` false in JavaScript exactly as `Nat` truncated
  subtraction does here).
-/

/-- The `step` field of `AppState`: `'upload' | 'parsing' | 'exam' | 'results'`. -/
inductive Step where
  | upload
  | parsing
  | exam
  | results
deriving DecidableEq

/-- The `Question` interface of `src/index.tsx`. -/
structure Question where
  id : Int
  text : String
  options : List String
  correctAnswer : String
  explanation : Option String
deriving DecidableEq

/-- The `AppState` interface of `src/index.tsx`.  `userAnswers` is the
`Record<number, string>` object, embedded as an association list. -/
structure AppState where
  step : Step
  questions : List Question
  currentQuestionIndex : Nat
  userAnswers : List (Nat × String)
  isLoading : Bool
  error : Option String
deriving DecidableEq

/-- The initial `useState` value (also the literal passed by `restartFull`). -/
def initialState : AppState :=
  { step := Step.upload
    questions := []
    currentQuestionIndex := 0
    userAnswers := []
    isLoading := false
    error := none }

/-- JavaScript object-spread update `{...m, [k]: v}`: the binding for `k` is
replaced (or added); all other keys keep their values. -/
def recordAnswer (m : List (Nat × String)) (k : Nat) (v : String) :
    List (Nat × String) :=
  (k, v) :: m.filter (fun p => p.1 != k)

/-- JavaScript property read `m[k]`, `undefined` becoming `none`. -/
def lookupAnswer (m : List (Nat × String)) (k : Nat) : Option String :=
  m.lookup k

/-- JavaScript truthiness of `m[k]` for a string-valued record: `undefined`
and `""` are falsy, every other string is truthy. -/
def truthy : Option String → Bool
  | some a => a != ""
  | none => false

/-! ### The Fisher–Yates shuffle (`shuffleArray`, lines 41–48) -/

/-- Swap of two positions of a list, as performed by the destructuring
assignment `[a[i], a[j]] = [a[j], a[i]]` (on the copy `newArray`).  When both
indices are in range the two cells are exchanged; the out-of-range case never
arises in the program because every draw satisfies `j ≤ i < length`. -/
def swapList (l : List α) (i j : Nat) : List α :=
  match l.get? i, l.get? j with
  | some x, some y => (l.set i y).set j x
  | _, _ => l

/-- The loop `for (let i = length - 1; i > 0; i--)` of `shuffleArray`: the
second argument is the current loop counter, `r i` the random draw used at
counter value `i`. -/
def fyAux (r : Nat → Nat) : List α → Nat → List α
  | l, 0 => l
  | l, i + 1 => fyAux r (swapList l (i + 1) (r (i + 1))) i

/-- `shuffleArray` of `src/index.tsx`: copy the input, then run the
Fisher–Yates loop from index `length - 1` down to `1`.  The random draws are
supplied by the oracle `r`. -/
def fisherYates (l : List α) (r : Nat → Nat) : List α :=
  fyAux r l (l.length - 1)

/-- The expression `shuffleArray(qs).map(q => ({...q, options:
shuffleArray(q.options)}))` occurring verbatim both in `generateQuestions`
(lines 119–122) and in `retakeCurrent` (lines 193–196).  Each `.map` callback
invocation calls `shuffleArray` with fresh randomness, so the option-shuffle
oracle is indexed by the position of the question in the shuffled list. -/
def randomizeQuestions (qs : List Question) (rq : Nat → Nat)
    (ro : Nat → Nat → Nat) : List Question :=
  (fisherYates qs rq).enum.map
    (fun p => { p.2 with options := fisherYates p.2.options (ro p.1) })

/-! ### Event handlers (raw `setState` updates) -/

/-- `selectAnswer` (lines 159–164): records the chosen string under the
current index, unconditionally. -/
def selectAnswer (s : AppState) (answer : String) : AppState :=
  { s with userAnswers := recordAnswer s.userAnswers s.currentQuestionIndex answer }

/-- `nextQuestion` (lines 166–172). -/
def nextQuestion (s : AppState) : AppState :=
  if s.currentQuestionIndex < s.questions.length - 1 then
    { s with currentQuestionIndex := s.currentQuestionIndex + 1 }
  else
    { s with step := Step.results }

/-- `prevQuestion` (lines 174–178); outside the guard no `setState` happens. -/
def prevQuestion (s : AppState) : AppState :=
  if 0 < s.currentQuestionIndex then
    { s with currentQuestionIndex := s.currentQuestionIndex - 1 }
  else
    s

/-- `restartFull` (lines 180–189): replaces the state with the initial
literal. -/
def restartFull (_s : AppState) : AppState :=
  initialState

/-- `retakeCurrent` (lines 191–206): reshuffles the current questions (and
each question's options), resets cursor and answers, moves to the exam step.
`rq` and `ro` are the fresh random draws consumed by the two shuffle layers. -/
def retakeCurrent (s : AppState) (rq : Nat → Nat) (ro : Nat → Nat → Nat) :
    AppState :=
  { s with
      step := Step.exam
      questions := randomizeQuestions s.questions rq ro
      currentQuestionIndex := 0
      userAnswers := []
      error := none }

/-! ### Ingestion (`generateQuestions`, lines 78–141, and `handleFileUpload`,
lines 143–157) -/

/-- The leading `setState` of `generateQuestions` (line 79). -/
def genBegin (s : AppState) : AppState :=
  { s with step := Step.parsing, isLoading := true, error := none }

/-- The fixed message produced when the parsed response carries no questions
(the thrown `Error` of line 131, prefixed by the `catch` branch). -/
def emptyResultMessage : String :=
  "Ошибка при анализе PDF: Не удалось распознать вопросы в этом документе."

/-- The `setState` performed once a model response has been parsed into
`data` (lines 116–140): a non-empty list is shuffled and installed, the exam
starts; an empty list raises the error caught below, which resets the step to
`upload` and records the message. -/
def genComplete (s : AppState) (data : List Question) (rq : Nat → Nat)
    (ro : Nat → Nat → Nat) : AppState :=
  if 0 < data.length then
    { s with
        step := Step.exam
        questions := randomizeQuestions data rq ro
        isLoading := false }
  else
    { s with
        step := Step.upload
        isLoading := false
        error := some emptyResultMessage }

/-- The `catch` branch of `generateQuestions` (lines 133–140) for a failure
whose `err.message` is `msg`. -/
def genFail (s : AppState) (msg : String) : AppState :=
  { s with
      step := Step.upload
      isLoading := false
      error := some ("Ошибка при анализе PDF: " ++ msg) }

/-- The `catch` branch of `handleFileUpload` (lines 154–156): PDF text
extraction failed before `generateQuestions` was ever called. -/
def extractFailed (s : AppState) : AppState :=
  { s with error := some "Не удалось прочитать PDF файл." }

/-- The early return of `handleFileUpload` for a non-PDF file (lines
146–149). -/
def rejectNonPdf (s : AppState) : AppState :=
  { s with error := some "Пожалуйста, загрузите только PDF-файл." }

/-! ### Scoring (`calculateResults`, lines 209–221) -/

/-- The record returned by `calculateResults`. -/
structure ExamResults where
  correct : Nat
  total : Nat
  score : Nat
deriving DecidableEq

/-- `calculateResults` (lines 209–221): the `forEach` accumulating
`correctCount` is a left fold over the indexed question list; the JavaScript
comparison `state.userAnswers[idx] === q.correctAnswer` is false when the
property is absent (`undefined`). -/
def calculateResults (s : AppState) : ExamResults :=
  let correctCount :=
    s.questions.enum.foldl
      (fun acc p =>
        if lookupAnswer s.userAnswers p.1 = some p.2.correctAnswer then
          acc + 1
        else
          acc)
      0
  { correct := correctCount
    total := s.questions.length
    score := correctCount * 2 }

/-- The per-item flag `isCorrect` computed independently in the detailed
breakdown (lines 413–414): `userAns === q.correctAnswer` with `userAns`
possibly `undefined`. -/
def breakdownIsCorrect (s : AppState) (idx : Nat) (q : Question) : Bool :=
  lookupAnswer s.userAnswers idx == some q.correctAnswer

/-- `Math.round` on an (idealized, exact-rational) JavaScript number:
round to nearest, halves toward positive infinity. -/
def jsRound (q : ℚ) : ℤ :=
  ⌊q + 1 / 2⌋

/-- The percentage computed in the results view (line 360),
`Math.round((results.correct / results.total) * 100)`.  When `total = 0` the
JavaScript expression is `0/0 = NaN`, modelled by `none`; otherwise the
division is exact rational arithmetic (for the small integer operands the
program produces, the double computation rounds to the same integer). -/
def resultsPercentage (s : AppState) : Option ℤ :=
  let r := calculateResults s
  if r.total = 0 then none
  else some (jsRound (((r.correct : ℚ) / (r.total : ℚ)) * 100))

/-! ### The UI layer: which handler calls the rendered JSX can actually fire -/

/-- An option button (lines 312–331) exists only while the exam block is
rendered (`step === 'exam' && questions.length > 0`, line 287) and only for
the strings contained in `questions[currentQuestionIndex].options`. -/
def uiSelectAnswer (s : AppState) (answer : String) : Option AppState :=
  match s.questions.get? s.currentQuestionIndex with
  | some q =>
      if s.step = Step.exam ∧ 0 < s.questions.length ∧ answer ∈ q.options then
        some (selectAnswer s answer)
      else
        none
  | none => none

/-- The next button (lines 345–352) is rendered with the exam block and is
`disabled` while `!state.userAnswers[state.currentQuestionIndex]`, i.e. while
the current position holds no truthy answer. -/
def uiNext (s : AppState) : Option AppState :=
  if s.step = Step.exam ∧ 0 < s.questions.length ∧
      truthy (lookupAnswer s.userAnswers s.currentQuestionIndex) = true then
    some (nextQuestion s)
  else
    none

/-- The back button (lines 337–344) is rendered with the exam block and is
`disabled` at index `0`. -/
def uiPrev (s : AppState) : Option AppState :=
  if s.step = Step.exam ∧ 0 < s.questions.length ∧
      s.currentQuestionIndex ≠ 0 then
    some (prevQuestion s)
  else
    none

/-- The retake button (lines 392–398) exists only inside the results block
(line 358). -/
def uiRetake (s : AppState) (rq : Nat → Nat) (ro : Nat → Nat → Nat) :
    Option AppState :=
  if s.step = Step.results then some (retakeCurrent s rq ro) else none

/-- The new-file button (lines 399–405) exists only inside the results
block. -/
def uiRestart (s : AppState) : Option AppState :=
  if s.step = Step.results then some (restartFull s) else none

/-- `calculateResults` is evaluated by the component only inside the results
block (lines 358–359). -/
def uiScore (s : AppState) : Option ExamResults :=
  if s.step = Step.results then some (calculateResults s) else none

/-! ### Sequential session semantics

One step of the application under the sequential (single-writer,
non-overlapping) regime of one ingestion at a time: user-driven events can
fire only where the JSX renders their control, a file can be chosen only
while the upload view (and hence its `<input type="file">`) is on screen,
and an ingestion started from the upload view delivers its outcome (success,
empty result, or failure) while the session still sits in the parsing step
it set. -/
inductive SessionStep : AppState → AppState → Prop
  | select {s s' : AppState} (a : String) :
      uiSelectAnswer s a = some s' → SessionStep s s'
  | next {s s' : AppState} :
      uiNext s = some s' → SessionStep s s'
  | prev {s s' : AppState} :
      uiPrev s = some s' → SessionStep s s'
  | retake {s s' : AppState} (rq : Nat → Nat) (ro : Nat → Nat → Nat) :
      uiRetake s rq ro = some s' → SessionStep s s'
  | restart {s s' : AppState} :
      uiRestart s = some s' → SessionStep s s'
  | nonPdf {s : AppState} :
      s.step = Step.upload → SessionStep s (rejectNonPdf s)
  | extractErr {s : AppState} :
      s.step = Step.upload → SessionStep s (extractFailed s)
  | ingestStart {s : AppState} :
      s.step = Step.upload → SessionStep s (genBegin s)
  | ingestDone {s : AppState} (data : List Question) (rq : Nat → Nat)
      (ro : Nat → Nat → Nat) :
      s.step = Step.parsing → SessionStep s (genComplete s data rq ro)
  | ingestErr {s : AppState} (msg : String) :
      s.step = Step.parsing → SessionStep s (genFail s msg)

/-- The states the application can reach from its initial `useState` value
under the sequential session semantics. -/
inductive Reachable : AppState → Prop
  | init : Reachable initialState
  | step {s s' : AppState} : Reachable s → SessionStep s s' → Reachable s'

/-- Two questions that agree on every field except possibly the order of
their options. -/
def sameUpToOptionOrder (q' q : Question) : Prop :=
  q'.id = q.id ∧ q'.text = q.text ∧ q'.correctAnswer = q.correctAnswer ∧
  q'.explanation = q.explanation ∧ List.Perm q'.options q.options

/-! ### Concrete sample data for instantiations -/

/-- A sample question. -/
def qMath : Question :=
  { id := 1, text := "2+2?", options := ["3", "4"], correctAnswer := "4",
    explanation := none }

/-- A second sample question, distinct from the first. -/
def qCapital : Question :=
  { id := 2, text := "Capital of France?", options := ["Paris", "Rome"],
    correctAnswer := "Paris", explanation := none }

/-- A sample question one of whose options is the empty string. -/
def qBlank : Question :=
  { id := 3, text := "Pick one", options := ["", "B"], correctAnswer := "B",
    explanation := none }

/-- A sample mid-exam state at the first of two questions, nothing
answered. -/
def activeState : AppState :=
  { step := Step.exam, questions := [qMath, qCapital],
    currentQuestionIndex := 0, userAnswers := [], isLoading := false,
    error := none }

/-- A sample mid-exam state whose current question has been answered with
the empty-string option. -/
def activeBlankState : AppState :=
  { step := Step.exam, questions := [qBlank, qMath],
    currentQuestionIndex := 0, userAnswers := [(0, "")], isLoading := false,
    error := none }

/-- A sample mid-exam state at the first of two questions with a non-empty
answer recorded for it. -/
def answeredState : AppState :=
  { step := Step.exam, questions := [qMath, qCapital],
    currentQuestionIndex := 0, userAnswers := [(0, "4")], isLoading := false,
    error := none }

/-- A sample mid-exam state sitting at the last index with every question
answered. -/
def lastIndexState : AppState :=
  { step := Step.exam, questions := [qMath, qCapital],
    currentQuestionIndex := 1, userAnswers := [(0, "4"), (1, "Rome")],
    isLoading := false, error := none }

/-- A sample completed session (the results view). -/
def completedState : AppState :=
  { step := Step.results, questions := [qMath, qCapital],
    currentQuestionIndex := 1, userAnswers := [(0, "4"), (1, "Rome")],
    isLoading := false, error := none }

/-- A results-step state holding no questions. -/
def emptyResultsState : AppState :=
  { step := Step.results, questions := [], currentQuestionIndex := 0,
    userAnswers := [], isLoading := false, error := none }

/-! ## Lemmas about the Fisher–Yates shuffle -/

/-- Setting a position of a list changes the count of each value by removing
one occurrence of the overwritten entry and adding one of the new entry. -/
theorem count_set_add [DecidableEq α] :
    ∀ (l : List α) (n : Nat) (b x : α), l.get? n = some x →
      ∀ c : α,
        (l.set n b).count c + (if x = c then 1 else 0)
          = l.count c + (if b = c then 1 else 0)
  | [], n, b, x, h, c => by simp at h
  | a :: t, 0, b, x, h, c => by
      injection h with h
      subst h
      simp only [List.set, List.count_cons, beq_iff_eq]
      split_ifs <;> omega
  | a :: t, n + 1, b, x, h, c => by
      simp only [List.get?] at h
      have ih := count_set_add t n b x h c
      simp only [List.set, List.count_cons, beq_iff_eq]
      split_ifs at ih ⊢ <;> omega

/-- A swap of two positions is a permutation of the list. -/
theorem swapList_perm (l : List α) (i j : Nat) :
    List.Perm (swapList l i j) l := by
  letI : DecidableEq α := Classical.decEq α
  unfold swapList
  cases hi : l.get? i with
  | none => exact List.Perm.refl l
  | some x =>
    cases hj : l.get? j with
    | none => exact List.Perm.refl l
    | some y =>
      obtain ⟨hjl, -⟩ := List.get?_eq_some.mp hj
      rw [List.perm_iff_count]
      intro c
      have hset : (l.set i y).get? j = some y := by
        by_cases hij : i = j
        · subst hij
          exact List.get?_set_eq_of_lt y (by simpa using hjl)
        · rw [List.get?_set_ne y l hij]
          exact hj
      have h1 := count_set_add (l.set i y) j x y hset c
      have h2 := count_set_add l i y x hi c
      exact Nat.add_right_cancel (h1.trans h2)

/-- Swapping preserves length. -/
theorem swapList_length (l : List α) (i j : Nat) :
    (swapList l i j).length = l.length := by
  unfold swapList
  cases l.get? i <;> cases l.get? j <;> simp

/-- Each pass of the shuffle loop permutes the list. -/
theorem fyAux_perm (r : Nat → Nat) :
    ∀ (i : Nat) (l : List α), List.Perm (fyAux r l i) l
  | 0, l => List.Perm.refl l
  | i + 1, l =>
      (fyAux_perm r i (swapList l (i + 1) (r (i + 1)))).trans
        (swapList_perm l (i + 1) (r (i + 1)))

/-- The shuffle loop preserves length. -/
theorem fyAux_length (r : Nat → Nat) :
    ∀ (i : Nat) (l : List α), (fyAux r l i).length = l.length
  | 0, _ => rfl
  | i + 1, l => by
      rw [fyAux, fyAux_length r i, swapList_length]

/-- The shuffle loop run down from counter value i only reads draws at
indices at most i. -/
theorem fyAux_congr (r r' : Nat → Nat) :
    ∀ (i : Nat) (l : List α), (∀ k, k ≤ i → r k = r' k) →
      fyAux r l i = fyAux r' l i
  | 0, l, _ => rfl
  | i + 1, l, h => by
      rw [fyAux, fyAux, h (i + 1) (Nat.le_refl _),
        fyAux_congr r r' i _ (fun k hk => h k (Nat.le_succ_of_le hk))]

/-- Characterization of the swap on in-range indices. -/
theorem swapList_eq (l : List α) {i j : Nat} {x y : α}
    (hi : l.get? i = some x) (hj : l.get? j = some y) :
    swapList l i j = (l.set i y).set j x := by
  unfold swapList
  rw [hi, hj]

/-- A swap located inside the left part of an appended list acts on that
part alone. -/
theorem swapList_append (m t : List α) (i j : Nat) (hi : i < m.length)
    (hj : j < m.length) :
    swapList (m ++ t) i j = swapList m i j ++ t := by
  have h1 : (m ++ t).get? i = some (m.get ⟨i, hi⟩) := by
    rw [List.get?_append hi]
    exact List.get?_eq_get hi
  have h2 : (m ++ t).get? j = some (m.get ⟨j, hj⟩) := by
    rw [List.get?_append hj]
    exact List.get?_eq_get hj
  rw [swapList_eq _ h1 h2,
    swapList_eq _ (List.get?_eq_get hi) (List.get?_eq_get hj),
    List.set_append_left _ _ hi,
    List.set_append_left _ _ (by simpa using hj)]

/-- The shuffle loop with counter below the length of the left part leaves
an appended tail untouched. -/
theorem fyAux_append (r : Nat → Nat) (hr : ∀ k, r k ≤ k) :
    ∀ (i : Nat) (m t : List α), i < m.length →
      fyAux r (m ++ t) i = fyAux r m i ++ t
  | 0, _, _, _ => rfl
  | i + 1, m, t, h => by
      rw [fyAux, fyAux,
        swapList_append m t (i + 1) (r (i + 1)) h
          (Nat.lt_of_le_of_lt (hr (i + 1)) h),
        fyAux_append r hr i _ t
          (by rw [swapList_length]; exact Nat.lt_of_succ_lt h)]

/-- After swapping positions i and j, position i holds the former
inhabitant of position j. -/
theorem swapList_get_left (l : List α) {i j : Nat} {x y : α}
    (hi : l.get? i = some x) (hj : l.get? j = some y) :
    (swapList l i j).get? i = some y := by
  obtain ⟨hil, -⟩ := List.get?_eq_some.mp hi
  rw [swapList_eq l hi hj]
  by_cases hij : j = i
  · subst hij
    rw [List.set_set, List.get?_set_eq_of_lt x (by simpa using hil)]
    rw [hi] at hj
    injection hj with e
    rw [e]
  · rw [List.get?_set_ne x _ hij]
    exact List.get?_set_eq_of_lt y hil

/-- Fisher–Yates reaches every rearrangement: for every list that is a
permutation of the input there is a sequence of in-range draws producing
exactly that list. -/
theorem fisherYates_surjective :
    ∀ (n : Nat) (l l' : List α), l.length = n → List.Perm l' l →
      ∃ r : Nat → Nat, (∀ k, r k ≤ k) ∧ fisherYates l r = l' := by
  intro n
  induction n with
  | zero =>
    intro l l' hl hp
    have hnil : l = [] := List.length_eq_zero.mp hl
    subst hnil
    have hnil' : l' = [] := hp.eq_nil
    subst hnil'
    exact ⟨fun _ => 0, fun k => Nat.zero_le k, rfl⟩
  | succ m ih =>
    intro l l' hl hp
    rcases Nat.eq_zero_or_pos m with hm | hm
    · subst hm
      obtain ⟨a, ha⟩ := List.length_eq_one.mp hl
      subst ha
      have h1 : l' = [a] := List.perm_singleton.mp hp
      subst h1
      exact ⟨fun _ => 0, fun k => Nat.zero_le k, rfl⟩
    · obtain ⟨i, rfl⟩ : ∃ i, m = i + 1 :=
        ⟨m - 1, (Nat.succ_pred_eq_of_pos hm).symm⟩
      have hne' : l' ≠ [] := by
        intro h
        rw [h] at hp
        have := hp.symm.eq_nil
        rw [this] at hl
        simp at hl
      set x := l'.getLast hne' with hxdef
      have hxl' : x ∈ l' := List.getLast_mem hne'
      have hxl : x ∈ l := (hp.mem_iff).mp hxl'
      obtain ⟨j, hj⟩ := List.mem_iff_get?.mp hxl
      obtain ⟨hjlen, -⟩ := List.get?_eq_some.mp hj
      have hmlen : i + 1 < l.length := by omega
      have hmget : l.get? (i + 1) = some (l.get ⟨i + 1, hmlen⟩) :=
        List.get?_eq_get hmlen
      set l₁ := swapList l (i + 1) j with hl₁def
      have hl₁x : l₁.get? (i + 1) = some x := swapList_get_left l hmget hj
      have hlen₁ : l₁.length = i + 2 := by
        rw [hl₁def, swapList_length, hl]
      have hne₁ : l₁ ≠ [] := by
        intro h
        rw [h] at hlen₁
        simp at hlen₁
      have hlast₁ : l₁.getLast hne₁ = x := by
        have h3 : l₁.get? (l₁.length - 1) = some x := by
          rw [hlen₁]
          simpa using hl₁x
        have h4 : l₁.get? (l₁.length - 1)
            = some (l₁.get ⟨l₁.length - 1, by omega⟩) :=
          List.get?_eq_get (by omega)
        rw [h4] at h3
        injection h3 with h5
        rw [List.getLast_eq_get]
        exact h5
      have hsplit₁ : l₁.dropLast ++ [x] = l₁ := by
        conv_rhs => rw [← List.dropLast_append_getLast hne₁]
        rw [hlast₁]
      set m₁ := l₁.dropLast with hm₁def
      have hm₁len : m₁.length = i + 1 := by
        rw [hm₁def, List.length_dropLast, hlen₁]
        omega
      have hsplit' : l'.dropLast ++ [x] = l' :=
        List.dropLast_append_getLast hne'
      have hperm₁ : List.Perm l₁ l := swapList_perm l (i + 1) j
      have hpermsplit : List.Perm (l'.dropLast ++ [x]) (m₁ ++ [x]) := by
        rw [hsplit₁, hsplit']
        exact hp.trans hperm₁.symm
      have hpermdrop : List.Perm l'.dropLast m₁ :=
        (List.perm_append_right_iff [x]).mp hpermsplit
      obtain ⟨r', hr', hfy'⟩ := ih m₁ l'.dropLast hm₁len hpermdrop
      have hrr : ∀ k, (if k = i + 1 then j else r' k) ≤ k := by
        intro k
        by_cases hk : k = i + 1
        · rw [if_pos hk]
          omega
        · rw [if_neg hk]
          exact hr' k
      refine ⟨fun k => if k = i + 1 then j else r' k, hrr, ?_⟩
      show fyAux _ l (l.length - 1) = l'
      have hlm1 : l.length - 1 = i + 1 := by omega
      rw [hlm1, fyAux]
      have hdraw : (if i + 1 = i + 1 then j else r' (i + 1)) = j :=
        if_pos rfl
      rw [hdraw, ← hl₁def, ← hsplit₁,
        fyAux_append _ hrr i m₁ [x] (by omega),
        fyAux_congr _ r' i m₁ (fun k hk => if_neg (by omega))]
      have hfin : fyAux r' m₁ i = l'.dropLast := by
        have h6 := hfy'
        unfold fisherYates at h6
        rw [hm₁len] at h6
        simpa using h6
      rw [hfin, hsplit']

/-- Writing back the value already stored at a position leaves the list
unchanged. -/
theorem set_get_self :
    ∀ (l : List α) (n : Nat) (x : α), l.get? n = some x → l.set n x = l
  | [], n, x, h => by simp at h
  | a :: t, 0, x, h => by
      injection h with h
      rw [List.set, h]
  | a :: t, n + 1, x, h => by
      simp only [List.get?] at h
      show a :: t.set n x = a :: t
      rw [set_get_self t n x h]

/-- A self-swap is the identity. -/
theorem swapList_self (l : List α) (n : Nat) : swapList l n n = l := by
  cases h : l.get? n with
  | none => unfold swapList; rw [h]
  | some x => rw [swapList_eq l h h, List.set_set, set_get_self l n x h]

/-- The identity draw sequence produces the identity shuffle. -/
theorem fyAux_id : ∀ (i : Nat) (l : List α), fyAux (fun k => k) l i = l
  | 0, _ => rfl
  | i + 1, l => by rw [fyAux, swapList_self, fyAux_id i l]

/-- The whole shuffle with identity draws returns the input list. -/
theorem fisherYates_id (l : List α) : fisherYates l (fun k => k) = l :=
  fyAux_id (l.length - 1) l

/-- With identity inner draws, the per-question option reshuffling collapses
and `randomizeQuestions` is just the outer question shuffle. -/
theorem randomizeQuestions_id_options (qs : List Question) (rq : Nat → Nat) :
    randomizeQuestions qs rq (fun _ k => k) = fisherYates qs rq := by
  unfold randomizeQuestions
  rw [List.map_congr_left
    (fun p _ => by rw [fisherYates_id ((Prod.snd p).options)])]
  exact List.enumFrom_map_snd 0 (fisherYates qs rq)

/-- Every list containing two positions with different entries admits a
rearrangement of itself that differs from it. -/
theorem exists_ne_perm (l : List α) {i j : Nat} (hi : i < l.length)
    (hj : j < l.length) (hne : l.get? i ≠ l.get? j) :
    ∃ l', List.Perm l' l ∧ l' ≠ l := by
  refine ⟨swapList l i j, swapList_perm l i j, ?_⟩
  intro heq
  apply hne
  have h2 := swapList_get_left l (List.get?_eq_get hi) (List.get?_eq_get hj)
  rw [heq] at h2
  exact h2.trans (List.get?_eq_get hj).symm

/-- Reshuffled question lists match the originals pointwise up to option
order. -/
theorem enumFrom_map_forall₂ (ro : Nat → Nat → Nat) :
    ∀ (n : Nat) (l : List Question),
      List.Forall₂ sameUpToOptionOrder
        ((List.enumFrom n l).map
          (fun p => { p.2 with options := fisherYates p.2.options (ro p.1) }))
        l
  | _, [] => List.Forall₂.nil
  | n, q :: t => by
      refine List.Forall₂.cons ?_ (enumFrom_map_forall₂ ro (n + 1) t)
      exact ⟨rfl, rfl, rfl, rfl, fyAux_perm _ _ _⟩

/-! ## Lemmas about the UI-guarded operations -/

/-- Characterization of JavaScript truthiness of a looked-up answer. -/
theorem truthy_iff (o : Option String) :
    truthy o = true ↔ ∃ a, o = some a ∧ a ≠ "" := by
  cases o with
  | none => simp [truthy]
  | some a => simp [truthy]

/-- A successful UI answer selection happens in the exam step and is the raw
handler applied to the state. -/
theorem uiSelectAnswer_some {s s' : AppState} {a : String}
    (h : uiSelectAnswer s a = some s') :
    s.step = Step.exam ∧ s' = selectAnswer s a := by
  unfold uiSelectAnswer at h
  split at h
  · split at h
    · injection h with h
      exact ⟨by tauto, h.symm⟩
    · cases h
  · cases h

/-- A successful UI next-click happens in the exam step and is the raw
handler applied to the state. -/
theorem uiNext_some {s s' : AppState} (h : uiNext s = some s') :
    s.step = Step.exam ∧ s' = nextQuestion s := by
  unfold uiNext at h
  by_cases hc : s.step = Step.exam ∧ 0 < s.questions.length ∧
      truthy (lookupAnswer s.userAnswers s.currentQuestionIndex) = true
  · rw [if_pos hc] at h
    injection h with h
    exact ⟨hc.1, h.symm⟩
  · rw [if_neg hc] at h
    cases h

/-- A successful UI back-click happens in the exam step and is the raw
handler applied to the state. -/
theorem uiPrev_some {s s' : AppState} (h : uiPrev s = some s') :
    s.step = Step.exam ∧ s' = prevQuestion s := by
  unfold uiPrev at h
  by_cases hc : s.step = Step.exam ∧ 0 < s.questions.length ∧
      s.currentQuestionIndex ≠ 0
  · rw [if_pos hc] at h
    injection h with h
    exact ⟨hc.1, h.symm⟩
  · rw [if_neg hc] at h
    cases h

/-- A successful UI retake happens in the results step and is the raw
handler applied to the state. -/
theorem uiRetake_some {s s' : AppState} {rq : Nat → Nat} {ro : Nat → Nat → Nat}
    (h : uiRetake s rq ro = some s') :
    s.step = Step.results ∧ s' = retakeCurrent s rq ro := by
  unfold uiRetake at h
  by_cases hc : s.step = Step.results
  · rw [if_pos hc] at h
    injection h with h
    exact ⟨hc, h.symm⟩
  · rw [if_neg hc] at h
    cases h

/-- A successful UI restart happens in the results step and resets the
state. -/
theorem uiRestart_some {s s' : AppState} (h : uiRestart s = some s') :
    s.step = Step.results ∧ s' = initialState := by
  unfold uiRestart at h
  by_cases hc : s.step = Step.results
  · rw [if_pos hc] at h
    injection h with h
    exact ⟨hc, h.symm⟩
  · rw [if_neg hc] at h
    cases h

/-- The raw next handler leaves the step at exam or moves it to results, and
never touches the question list. -/
theorem nextQuestion_step (s : AppState) :
    ((nextQuestion s).step = s.step ∨ (nextQuestion s).step = Step.results) ∧
    (nextQuestion s).questions = s.questions := by
  unfold nextQuestion
  by_cases hc : s.currentQuestionIndex < s.questions.length - 1
  · rw [if_pos hc]
    exact ⟨Or.inl rfl, rfl⟩
  · rw [if_neg hc]
    exact ⟨Or.inr rfl, rfl⟩

/-- The raw back handler never changes step or questions. -/
theorem prevQuestion_step (s : AppState) :
    (prevQuestion s).step = s.step ∧ (prevQuestion s).questions = s.questions := by
  unfold prevQuestion
  by_cases hc : 0 < s.currentQuestionIndex
  · rw [if_pos hc]
    exact ⟨rfl, rfl⟩
  · rw [if_neg hc]
    exact ⟨rfl, rfl⟩

/-! ## The sequential-session invariant: before a successful ingestion there
are no questions -/

/-- A single session step preserves the invariant that no questions are held
while the step is upload or parsing. -/
theorem sessionStep_questions {s s' : AppState} (hs : SessionStep s s')
    (ih : (s.step = Step.upload ∨ s.step = Step.parsing) → s.questions = []) :
    (s'.step = Step.upload ∨ s'.step = Step.parsing) → s'.questions = [] := by
  cases hs with
  | select a hsel =>
    obtain ⟨hstep, rfl⟩ := uiSelectAnswer_some hsel
    have hs2 : (selectAnswer s a).step = Step.exam := hstep
    intro hor
    rcases hor with h1 | h1 <;> rw [hs2] at h1 <;> cases h1
  | next hnext =>
    obtain ⟨hstep, rfl⟩ := uiNext_some hnext
    obtain ⟨hor, -⟩ := nextQuestion_step s
    intro hcase
    rcases hor with h1 | h1
    · rw [h1, hstep] at hcase
      rcases hcase with h2 | h2 <;> cases h2
    · rw [h1] at hcase
      rcases hcase with h2 | h2 <;> cases h2
  | prev hprev =>
    obtain ⟨hstep, rfl⟩ := uiPrev_some hprev
    obtain ⟨h1, -⟩ := prevQuestion_step s
    intro hcase
    rw [h1, hstep] at hcase
    rcases hcase with h2 | h2 <;> cases h2
  | retake rq ro hret =>
    obtain ⟨hstep, rfl⟩ := uiRetake_some hret
    have hs2 : (retakeCurrent s rq ro).step = Step.exam := rfl
    intro hcase
    rw [hs2] at hcase
    rcases hcase with h2 | h2 <;> cases h2
  | restart hres =>
    obtain ⟨hstep, rfl⟩ := uiRestart_some hres
    intro _
    rfl
  | nonPdf hstep =>
    intro _
    exact ih (Or.inl hstep)
  | extractErr hstep =>
    intro _
    exact ih (Or.inl hstep)
  | ingestStart hstep =>
    intro _
    exact ih (Or.inl hstep)
  | ingestDone data rq ro hstep =>
    intro hcase
    unfold genComplete at hcase ⊢
    by_cases hd : 0 < data.length
    · rw [if_pos hd] at hcase
      rcases hcase with h2 | h2 <;> cases h2
    · rw [if_neg hd] at hcase ⊢
      exact ih (Or.inr hstep)
  | ingestErr msg hstep =>
    intro _
    exact ih (Or.inr hstep)

/-- In every sequentially reachable state whose step is upload or parsing,
the question list is empty: questions exist only from a successful ingestion
onwards, and every route back to upload passes through the full reset or
keeps the (empty) list. -/
theorem reachable_questions_empty {s : AppState} (h : Reachable s) :
    (s.step = Step.upload ∨ s.step = Step.parsing) → s.questions = [] := by
  induction h with
  | init => intro _; rfl
  | step hr hs ih => exact sessionStep_questions hs ih

/-! ## Claim theorems -/

/-- C5: for every finite input sequence, `shuffleArray` returns a sequence
with exactly the same multiset of elements (a permutation), it is total
with no error conditions (the permutation conjunct holds for every draw
oracle), empty and single-element inputs come back unchanged, and every
permutation of the input is reachable for some outcome of the random draws
(the in-range condition on the draws mirrors the values
`Math.floor(Math.random() * (i + 1))` can take).  The input itself is never
mutated: `shuffleArray` operates on the copy `[...array]`, which the
embedding reflects by being a pure function of the input value. -/
theorem shuffleArray_spec {α : Type} :
    (∀ (l : List α) (r : Nat → Nat), List.Perm (fisherYates l r) l) ∧
    (∀ r : Nat → Nat, fisherYates ([] : List α) r = []) ∧
    (∀ (x : α) (r : Nat → Nat), fisherYates [x] r = [x]) ∧
    (∀ l l' : List α, List.Perm l' l →
      ∃ r : Nat → Nat, (∀ k, r k ≤ k) ∧ fisherYates l r = l') :=
  ⟨fun l r => fyAux_perm r (l.length - 1) l,
   fun _ => rfl,
   fun _ _ => rfl,
   fun l l' hp => fisherYates_surjective l.length l l' rfl hp⟩

/-- Witness for C5 at concrete inputs: the draws are in range and produce
the requested rearrangement. -/
theorem shuffleArray_spec_witness :
    List.Perm (fisherYates [1, 2, 3] (fun _ => 0)) [1, 2, 3] ∧
    (∃ r : Nat → Nat, (∀ k, r k ≤ k) ∧ fisherYates [1, 2, 3] r = [3, 1, 2]) :=
  ⟨shuffleArray_spec.1 [1, 2, 3] (fun _ => 0),
   shuffleArray_spec.2.2.2 [1, 2, 3] [3, 1, 2] (by decide)⟩

/-- C10: advancing from the last index changes only the step (to results);
the question list, the answers record and the cursor are untouched, so the
scoring computed afterwards reads exactly the answers recorded during the
attempt. -/
theorem advance_last_frame (s : AppState)
    (h : s.currentQuestionIndex = s.questions.length - 1) :
    nextQuestion s = { s with step := Step.results } ∧
    (nextQuestion s).questions = s.questions ∧
    (nextQuestion s).userAnswers = s.userAnswers ∧
    (nextQuestion s).currentQuestionIndex = s.currentQuestionIndex ∧
    calculateResults (nextQuestion s) = calculateResults s := by
  have hn : ¬ s.currentQuestionIndex < s.questions.length - 1 := by omega
  unfold nextQuestion
  rw [if_neg hn]
  exact ⟨rfl, rfl, rfl, rfl, rfl⟩

/-- Witness for C10 at a concrete last-index state. -/
theorem advance_last_frame_witness :
    nextQuestion lastIndexState = { lastIndexState with step := Step.results } ∧
    calculateResults (nextQuestion lastIndexState)
      = calculateResults lastIndexState := by
  have h := advance_last_frame lastIndexState (by decide)
  exact ⟨h.1, h.2.2.2.2⟩

/-- C1 counterexample: in a Completed session (results step), `selectAnswer`
is not rejected with any error and does mutate the state: the answer string
is recorded under the current index. -/
theorem invalid_transition_counterexample :
    completedState.step = Step.results ∧
    selectAnswer completedState "4" ≠ completedState ∧
    lookupAnswer (selectAnswer completedState "4").userAnswers 1 = some "4" ∧
    lookupAnswer completedState.userAnswers 1 = some "Rome" := by decide

/-- C1 (amended): the handler functions carry no phase guard and no
`InvalidTransition` error value exists; instead, invocation from an
unsupported phase is prevented at the UI layer alone: outside the exam step
the option buttons and the navigation buttons are not rendered (their
guarded invocations yield nothing), and outside the results step the
retake/restart buttons are not rendered and the score is not computed. -/
theorem ops_phase_guard_ui (s : AppState) :
    (s.step ≠ Step.exam →
      (∀ a, uiSelectAnswer s a = none) ∧ uiNext s = none ∧ uiPrev s = none) ∧
    (s.step ≠ Step.results →
      (∀ rq ro, uiRetake s rq ro = none) ∧ uiRestart s = none ∧
        uiScore s = none) := by
  constructor
  · intro h
    refine ⟨?_, ?_, ?_⟩
    · intro a
      unfold uiSelectAnswer
      cases s.questions.get? s.currentQuestionIndex with
      | none => rfl
      | some q => exact if_neg (fun hc => h hc.1)
    · exact if_neg (fun hc => h hc.1)
    · exact if_neg (fun hc => h hc.1)
  · intro h
    exact ⟨fun rq ro => if_neg h, if_neg h, if_neg h⟩

/-- Witness for C1's amended statement at concrete out-of-phase states. -/
theorem ops_phase_guard_ui_witness :
    uiSelectAnswer completedState "4" = none ∧
    uiRetake initialState (fun k => k) (fun _ k => k) = none := by
  have h1 := (ops_phase_guard_ui completedState).1 (by decide)
  have h2 := (ops_phase_guard_ui initialState).2 (by decide)
  exact ⟨h1.1 "4", h2.1 _ _⟩

/-- C2 counterexample: a session in the exam step whose current question has
an answer recorded (the empty-string option) where advancing is nevertheless
rejected: the next button's disabled check uses JavaScript truthiness, so a
recorded empty-string answer blocks navigation like an absent one. -/
theorem advance_blocked_counterexample :
    activeBlankState.step = Step.exam ∧
    lookupAnswer activeBlankState.userAnswers
      activeBlankState.currentQuestionIndex = some "" ∧
    "" ∈ qBlank.options ∧
    activeBlankState.questions.get? 0 = some qBlank ∧
    uiNext activeBlankState = none := by decide

/-- C2 (amended): in the exam step with questions present, advancing is
possible exactly when the answer recorded for the current position is
present and non-empty (the truthiness check of the disabled attribute);
when it fires below the last index the cursor increments by exactly one,
and when it fires at the last index the step becomes results. -/
theorem advance_spec (s : AppState) (hstep : s.step = Step.exam)
    (hq : 0 < s.questions.length) :
    ((uiNext s).isSome ↔
      ∃ a, lookupAnswer s.userAnswers s.currentQuestionIndex = some a ∧
        a ≠ "") ∧
    (∀ s', uiNext s = some s' →
      s.currentQuestionIndex < s.questions.length - 1 →
      s' = { s with currentQuestionIndex := s.currentQuestionIndex + 1 }) ∧
    (∀ s', uiNext s = some s' →
      s.currentQuestionIndex = s.questions.length - 1 →
      s' = { s with step := Step.results }) := by
  refine ⟨?_, ?_, ?_⟩
  · constructor
    · intro hsome
      by_cases hc : s.step = Step.exam ∧ 0 < s.questions.length ∧
          truthy (lookupAnswer s.userAnswers s.currentQuestionIndex) = true
      · exact (truthy_iff _).mp hc.2.2
      · unfold uiNext at hsome
        rw [if_neg hc] at hsome
        cases hsome
    · intro hex
      unfold uiNext
      rw [if_pos ⟨hstep, hq, (truthy_iff _).mpr hex⟩]
      rfl
  · intro s' hs' hlt
    obtain ⟨-, rfl⟩ := uiNext_some hs'
    unfold nextQuestion
    rw [if_pos hlt]
  · intro s' hs' hlast
    obtain ⟨-, rfl⟩ := uiNext_some hs'
    unfold nextQuestion
    rw [if_neg (by omega)]

/-- Witness for C2's amended statement: a concrete answered state where the
next button is enabled and advancing moves the cursor from 0 to 1. -/
theorem advance_spec_witness :
    (uiNext answeredState).isSome = true ∧
    uiNext answeredState = some { answeredState with currentQuestionIndex := 1 } := by
  have h := advance_spec answeredState rfl (by decide)
  have hsome : (uiNext answeredState).isSome = true :=
    h.1.mpr ⟨"4", by decide, by decide⟩
  refine ⟨hsome, ?_⟩
  obtain ⟨s', hs'⟩ := Option.isSome_iff_exists.mp hsome
  have h3 := h.2.1 s' hs' (by decide)
  rw [hs', h3]
  decide

/-- C3 counterexample: a string that is not among the current question's
options is not rejected: `selectAnswer` records it under the current
index. -/
theorem invalid_answer_counterexample :
    activeState.step = Step.exam ∧
    activeState.questions.get? 0 = some qMath ∧
    "zzz" ∉ qMath.options ∧
    lookupAnswer (selectAnswer activeState "zzz").userAnswers 0
      = some "zzz" := by decide

/-- C3 (amended): `selectAnswer` validates nothing — it records whatever
string it is given at key cursor (so for an option that is a member it does
record that exact string, and for a non-member it records it just the same;
no `InvalidAnswer` value exists).  Out-of-set values cannot arrive through
the UI: the rendered option buttons invoke the handler only with member
strings, so the guarded invocation of a non-member yields nothing. -/
theorem selectAnswer_no_validation (s : AppState) (a : String) :
    lookupAnswer (selectAnswer s a).userAnswers s.currentQuestionIndex
      = some a ∧
    (selectAnswer s a).step = s.step ∧
    (selectAnswer s a).questions = s.questions ∧
    (∀ q, s.questions.get? s.currentQuestionIndex = some q → a ∉ q.options →
      uiSelectAnswer s a = none) := by
  refine ⟨?_, rfl, rfl, ?_⟩
  · show lookupAnswer
      (recordAnswer s.userAnswers s.currentQuestionIndex a)
      s.currentQuestionIndex = some a
    unfold recordAnswer lookupAnswer
    simp [List.lookup]
  · intro q hq hmem
    simp only [uiSelectAnswer, hq]
    exact if_neg (fun hc => hmem hc.2.2)

/-- Witness for C3's amended statement at a concrete state and non-member
string. -/
theorem selectAnswer_no_validation_witness :
    lookupAnswer (selectAnswer activeState "nope").userAnswers 0
      = some "nope" ∧
    uiSelectAnswer activeState "nope" = none := by
  have h := selectAnswer_no_validation activeState "nope"
  exact ⟨h.1, h.2.2.2 qMath (by decide) (by decide)⟩

/-- Counting fold used by the scoring routine, expressed against the
independently computed per-item flags of the detailed breakdown. -/
theorem foldl_count_breakdown (s : AppState) :
    ∀ (l : List (Nat × Question)) (acc : Nat),
      l.foldl
        (fun acc p =>
          if lookupAnswer s.userAnswers p.1 = some p.2.correctAnswer then
            acc + 1
          else
            acc)
        acc
      = acc + l.countP (fun p => breakdownIsCorrect s p.1 p.2)
  | [], acc => by simp
  | p :: t, acc => by
      rw [List.foldl_cons, List.countP_cons, foldl_count_breakdown s t]
      by_cases hc : lookupAnswer s.userAnswers p.1 = some p.2.correctAnswer
      · rw [if_pos hc]
        have hb : breakdownIsCorrect s p.1 p.2 = true := by
          simp [breakdownIsCorrect, hc]
        rw [hb]
        simp
        omega
      · rw [if_neg hc]
        have hb : breakdownIsCorrect s p.1 p.2 = false := by
          simp [breakdownIsCorrect]
          exact hc
        rw [hb]
        simp

/-- C6: the score record agrees position by position with the per-item
correctness flags of the detailed breakdown: a position counts exactly when
the recorded answer equals that question's correctAnswer, an absent answer
is always incorrect (and raises nothing — the scoring fold is total),
correctCount is the number of correct positions, and the total score is
correctCount times the per-question constant 2. -/
theorem calculateResults_spec (s : AppState) :
    (calculateResults s).total = s.questions.length ∧
    (calculateResults s).correct
      = s.questions.enum.countP (fun p => breakdownIsCorrect s p.1 p.2) ∧
    (calculateResults s).score = (calculateResults s).correct * 2 ∧
    (∀ i q, s.questions.get? i = some q →
      (breakdownIsCorrect s i q = true ↔
        lookupAnswer s.userAnswers i = some q.correctAnswer)) ∧
    (∀ i, lookupAnswer s.userAnswers i = none →
      ∀ q, breakdownIsCorrect s i q = false) := by
  refine ⟨rfl, ?_, rfl, ?_, ?_⟩
  · show s.questions.enum.foldl _ 0 = _
    rw [foldl_count_breakdown s s.questions.enum 0, Nat.zero_add]
  · intro i q _
    simp [breakdownIsCorrect]
  · intro i h q
    simp [breakdownIsCorrect, h]

/-- Witness for C6 at a concrete completed session: the first question was
answered correctly, the second incorrectly. -/
theorem calculateResults_spec_witness :
    (calculateResults completedState).correct
      = completedState.questions.enum.countP
          (fun p => breakdownIsCorrect completedState p.1 p.2) ∧
    (breakdownIsCorrect completedState 0 qMath = true ↔
      lookupAnswer completedState.userAnswers 0 = some qMath.correctAnswer) ∧
    breakdownIsCorrect initialState 0 qMath = false := by
  have h := calculateResults_spec completedState
  have h2 := calculateResults_spec initialState
  exact ⟨h.2.1, h.2.2.2.1 0 qMath (by decide),
    h2.2.2.2.2 0 (by decide) qMath⟩

/-- C7 counterexample: with zero questions the percentage expression is
`Math.round((0 / 0) * 100)`, i.e. NaN (modelled by `none`), not the claimed
value 0. -/
theorem percentage_zero_counterexample :
    emptyResultsState.questions.length = 0 ∧
    resultsPercentage emptyResultsState = none ∧
    resultsPercentage emptyResultsState ≠ some 0 := by
  refine ⟨rfl, rfl, ?_⟩
  intro h
  cases h

/-- C7 (amended): for a session with at least one question the reported
percentage is the rounding of `100 * correctCount / questions.length`
(halves toward positive infinity, as `Math.round` does); with zero
questions the expression divides zero by zero and the result is NaN
(`none`), not 0. -/
theorem percentage_spec (s : AppState) :
    (s.questions.length = 0 → resultsPercentage s = none) ∧
    (0 < s.questions.length →
      resultsPercentage s
        = some (jsRound ((100 * ((calculateResults s).correct : ℚ))
            / (s.questions.length : ℚ)))) := by
  have ht : (calculateResults s).total = s.questions.length := rfl
  constructor
  · intro h
    show (if (calculateResults s).total = 0 then _ else _) = _
    rw [if_pos (by rw [ht, h])]
  · intro h
    show (if (calculateResults s).total = 0 then _ else _)
      = some (jsRound _)
    rw [if_neg (by rw [ht]; omega), ht]
    congr 1
    rw [mul_comm, mul_div_assoc]

/-- Witness for C7's amended statement: two questions, one correct, gives
round(100 / 2) = 50. -/
theorem percentage_spec_witness :
    resultsPercentage completedState
      = some (jsRound ((100 * ((calculateResults completedState).correct : ℚ))
          / (completedState.questions.length : ℚ))) :=
  (percentage_spec completedState).2 (by decide)

/-- C8: from a Completed session, retake moves the phase to Active, resets
the cursor to 0 and the answers to the empty record, and produces a question
list that is a permutation of the previous one in which each question keeps
its identity with its options permuted; and whenever two positions hold
different questions, some outcome of the fresh draws produces an order
different from the prior one (the new order is re-derived by a fresh
shuffle, so it is not guaranteed to be identical). -/
theorem retake_spec (s : AppState) (_hstep : s.step = Step.results)
    (rq : Nat → Nat) (ro : Nat → Nat → Nat) :
    (retakeCurrent s rq ro).step = Step.exam ∧
    (retakeCurrent s rq ro).currentQuestionIndex = 0 ∧
    (retakeCurrent s rq ro).userAnswers = [] ∧
    (∃ l, List.Perm l s.questions ∧
      List.Forall₂ sameUpToOptionOrder (retakeCurrent s rq ro).questions l) ∧
    (∀ i j : Nat, i < s.questions.length → j < s.questions.length →
      s.questions.get? i ≠ s.questions.get? j →
      ∃ rq' ro', (retakeCurrent s rq' ro').questions ≠ s.questions) := by
  refine ⟨rfl, rfl, rfl, ?_, ?_⟩
  · refine ⟨fisherYates s.questions rq, fyAux_perm rq _ _, ?_⟩
    show List.Forall₂ sameUpToOptionOrder (randomizeQuestions s.questions rq ro) _
    unfold randomizeQuestions
    exact enumFrom_map_forall₂ ro 0 (fisherYates s.questions rq)
  · intro i j hi hj hne
    obtain ⟨l', hperm, hnel⟩ := exists_ne_perm s.questions hi hj hne
    obtain ⟨r, hr, hfy⟩ :=
      fisherYates_surjective s.questions.length s.questions l' rfl hperm
    refine ⟨r, fun _ k => k, ?_⟩
    show randomizeQuestions s.questions r (fun _ k => k) ≠ s.questions
    rw [randomizeQuestions_id_options, hfy]
    exact hnel

/-- Witness for C8 at a concrete completed two-question session. -/
theorem retake_spec_witness :
    (retakeCurrent completedState (fun k => k) (fun _ k => k)).currentQuestionIndex = 0 ∧
    (retakeCurrent completedState (fun k => k) (fun _ k => k)).userAnswers = [] ∧
    (∃ rq' ro',
      (retakeCurrent completedState rq' ro').questions
        ≠ completedState.questions) := by
  have h := retake_spec completedState rfl (fun k => k) (fun _ k => k)
  exact ⟨h.2.1, h.2.2.1, h.2.2.2.2 0 1 (by decide) (by decide) (by decide)⟩

/-- C4: under the sequential session regime, an ingestion that fails or
yields zero usable questions collapses the session to Idle (the upload step)
with a human-readable message in the error field, and no question data
survives: the failing attempt stored none (questions are only written on
success), and the prior question list is empty in every reachable parsing
state, so the resulting state holds no questions at all. -/
theorem ingestion_failure_collapses (s : AppState) (hr : Reachable s)
    (hp : s.step = Step.parsing) :
    (∀ msg, (genFail s msg).step = Step.upload ∧
      (genFail s msg).questions = [] ∧
      (genFail s msg).error = some ("Ошибка при анализе PDF: " ++ msg)) ∧
    (∀ rq ro, (genComplete s [] rq ro).step = Step.upload ∧
      (genComplete s [] rq ro).questions = [] ∧
      (genComplete s [] rq ro).error = some emptyResultMessage) := by
  have hq : s.questions = [] := reachable_questions_empty hr (Or.inr hp)
  constructor
  · intro msg
    exact ⟨rfl, hq, rfl⟩
  · intro rq ro
    have hd : ¬ 0 < ([] : List Question).length := by simp
    unfold genComplete
    rw [if_neg hd]
    exact ⟨rfl, hq, rfl⟩

/-- Witness for C4 at the concrete reachable state obtained by starting an
ingestion from the initial state. -/
theorem ingestion_failure_collapses_witness :
    (genFail (genBegin initialState) "quota").step = Step.upload ∧
    (genFail (genBegin initialState) "quota").questions = [] ∧
    (genComplete (genBegin initialState) [] (fun k => k) (fun _ k => k)).questions
      = [] := by
  have hr : Reachable (genBegin initialState) :=
    Reachable.step Reachable.init (SessionStep.ingestStart rfl)
  have h := ingestion_failure_collapses (genBegin initialState) hr rfl
  exact ⟨(h.1 "quota").1, (h.1 "quota").2.1,
    (h.2 (fun k => k) (fun _ k => k)).2.1⟩

/-- C9 counterexample: no ingestion token exists, and with two overlapping
ingestion attempts (both begun from the upload view while the first PDF
extraction was still pending) the attempt whose model response arrives last
wins.  Here attempt 1 carries question data `[qMath]` and attempt 2 carries
`[qCapital]`; attempt 2's response arrives first, then attempt 1's stale
response arrives and overwrites it, so the session ends up reflecting
attempt 1 — not only the second attempt's outcome as claimed. -/
theorem ingestion_race_counterexample :
    qMath ≠ qCapital ∧
    (genComplete (genBegin (genBegin initialState))
        [qCapital] (fun k => k) (fun _ k => k)).questions = [qCapital] ∧
    (genComplete
        (genComplete (genBegin (genBegin initialState))
          [qCapital] (fun k => k) (fun _ k => k))
        [qMath] (fun k => k) (fun _ k => k)).questions = [qMath] := by decide

/-- C9 (amended): the code tags nothing — a completion applies its
`setState` unconditionally to whatever the current state is, installing its
own shuffled questions and moving to the exam step; there is no staleness
check, so when ingestions overlap the last-arriving result determines the
session even if it belongs to the earlier attempt. -/
theorem ingestion_completion_unconditional (s : AppState)
    (data : List Question) (rq : Nat → Nat) (ro : Nat → Nat → Nat)
    (h : 0 < data.length) :
    (genComplete s data rq ro).questions = randomizeQuestions data rq ro ∧
    (genComplete s data rq ro).step = Step.exam ∧
    (genComplete s data rq ro).isLoading = false := by
  unfold genComplete
  rw [if_pos h]
  exact ⟨rfl, rfl, rfl⟩

/-- Witness for C9's amended statement: a late completion overwrites even a
completed session. -/
theorem ingestion_completion_unconditional_witness :
    (genComplete completedState [qMath] (fun k => k) (fun _ k => k)).questions
      = randomizeQuestions [qMath] (fun k => k) (fun _ k => k) ∧
    (genComplete completedState [qMath] (fun k => k) (fun _ k => k)).step
      = Step.exam :=
  ⟨(ingestion_completion_unconditional completedState [qMath]
      (fun k => k) (fun _ k => k) (by decide)).1,
   (ingestion_completion_unconditional completedState [qMath]
      (fun k => k) (fun _ k => k) (by decide)).2.1⟩
